import Mathlib

/-!
Verification of the hybrid retrieval / answer-assembly engine of the
rag-chatbot-assistant repository.

The Python modules `src/vector_store.py`, `src/bm25_retriever.py`,
`src/hybrid_retriever.py` (checked in under `rag_chatbot/retrievers/`) and
`src/rag_system.py` are shallow-embedded below.  Python strings are modelled
as `List Char`, floats as `Rat`, dictionaries with a fixed key set as
structures with `Option` fields for keys that may be absent.  External
capabilities (the FAISS similarity search, the BM25 scoring library and the
LLM client) are modelled as parameters: the embedded functions receive the
scored hit list / raw score list / generated text that the capability
returns, and embed everything the repository code itself does with them.
-/

namespace RagSpec

/-- Python strings are modelled as lists of characters. -/
abbrev Str := List Char

/-- Convert a Lean string literal to the embedded text type. -/
def str (s : String) : Str := s.toList

/-- Python `str.strip()`, right half: drop trailing whitespace. -/
def stripRight (cs : Str) : Str := (cs.reverse.dropWhile Char.isWhitespace).reverse

/-- Python `str.strip()`: drop leading and trailing whitespace. -/
def pyStrip (cs : Str) : Str := (stripRight cs).dropWhile Char.isWhitespace

/-- Python `pathlib.Path(s).name`: the component after the last `/`
(trailing-separator normalisation is not modelled; no input below uses it). -/
def pathName (s : Str) : Str := s.foldl (fun acc c => if c = '/' then [] else acc ++ [c]) []

/-- Python `a or b` for an optional string `a`: `b` when `a` is missing or
empty (falsy), otherwise the string held by `a`. -/
def pyOr (a : Option Str) (b : Str) : Str :=
  match a with
  | some s => if s.isEmpty then b else s
  | none => b

/-- Metadata dictionary of a langchain `Document`, restricted to the keys the
embedded code reads.  `sectionName` embeds the key `"section"`. -/
structure Metadata where
  source : Option Str
  section_path : Option Str
  sectionName : Option Str
  chunk_index : Option Int
  chunk_in_section : Option Int
deriving DecidableEq

/-- A langchain `Document`: page content plus metadata. -/
structure Document where
  page_content : Str
  metadata : Metadata
deriving DecidableEq

instance : Inhabited Document := ⟨⟨[], none, none, none, none, none⟩⟩

/-- A passage identity triple as built by both rankers:
(source name, section path, chunk index). -/
abbrev UID := Str × Str × Int

/-- A retrieval hit: the dictionary shape shared by
`VectorStore.topk_with_citations` and `BM25Retriever.topk`.  Sparse hits carry
no `"citation"` key; they are modelled with `citation := []`, which is what
`rrf_fuse` reads off them via `h.get("citation", "")`. -/
structure Hit where
  doc : Document
  score : Rat
  rank : Nat
  source : Str
  section_path : Str
  chunk_index : Int
  citation : Str
  uid : UID
deriving DecidableEq

/-! Configuration constants: the defaults from `config.py`
(no environment overrides). -/

def MAX_DISTINCT_CITATIONS : Nat := 3
def MAX_CONTEXT_LENGTH : Nat := 2500
def MIN_COSINE_SIMILARITY : Rat := 15/100
def BM25_TOP_K : Nat := 20
def BM25_MIN_SCORE : Rat := 1/10
def DENSE_TOP_K : Nat := 6
def RRF_K : Nat := 60
def FUSED_TOP_K : Nat := 3

/-- The two characters `vector_store.py` writes before a section path:
U+0E22 U+0E07 (the literal bytes in `f" ยง{sec_path}"`), preceded by a
space. -/
def sectionSep : Str := [' ', 'ย', 'ง']

/-- Citation display string of `topk_with_citations` / `build_context`:
source name, plus the section marker when the section path is non-empty. -/
def citeOf (src sec : Str) : Str := src ++ (if sec.isEmpty then [] else sectionSep ++ sec)

/-! Dense ranker: `VectorStore.topk_with_citations`.  The FAISS similarity
search is external; its scored result list is the `hits` parameter. -/

/-- One dense hit record: body of the `for rank, (doc, score) in
enumerate(hits, start=1)` loop of `topk_with_citations`. -/
def denseHit (d : Document) (score : Rat) (rank : Nat) : Hit :=
  let meta := d.metadata
  let srcName := pathName (meta.source.getD (str "Unknown"))
  let secPath := pyOr meta.section_path (pyOr meta.sectionName [])
  let chunkIdx := meta.chunk_index.getD (meta.chunk_in_section.getD ((rank : Int) - 1))
  { doc := d, score := score, rank := rank, source := srcName,
    section_path := secPath, chunk_index := chunkIdx,
    citation := citeOf srcName secPath, uid := (srcName, secPath, chunkIdx) }

/-- The `enumerate(hits, start=1)` loop of `topk_with_citations`. -/
def denseRank : Nat → List (Document × Rat) → List Hit
  | _, [] => []
  | r, (d, s) :: rest => denseHit d s r :: denseRank (r + 1) rest

/-- `VectorStore.topk_with_citations`, applied to the scored hits returned by
the external similarity search. -/
def topk_with_citations (hits : List (Document × Rat)) : List Hit := denseRank 1 hits

/-! Sparse ranker: `BM25Retriever.topk`.  `BM25Okapi.get_scores` is external;
its per-document score array is the `scores` parameter (`scores[i]` is the
score of `docs[i]`). -/

/-- `scores[i]` (always in range in the Python code). -/
def scoreAt (scores : List Rat) (i : Nat) : Rat := scores.getD i 0

/-- Stable descending insertion of an index by score: mirrors
`sorted(range(len(scores)), key=lambda i: scores[i], reverse=True)`, under
which equal-score indices keep their original order. -/
def insertDescIdx (scores : List Rat) (x : Nat) : List Nat → List Nat
  | [] => [x]
  | y :: ys =>
    if scoreAt scores y ≤ scoreAt scores x then x :: y :: ys
    else y :: insertDescIdx scores x ys

/-- Stable descending sort of a list of indices by score. -/
def sortIdxDesc (scores : List Rat) : List Nat → List Nat
  | [] => []
  | x :: xs => insertDescIdx scores x (sortIdxDesc scores xs)

/-- One sparse hit record: body of the `for rank, i in enumerate(idxs,
start=1)` loop of `BM25Retriever.topk` (`i` is the corpus index of the
document). -/
def sparseHit (docs : List Document) (scores : List Rat) (rank : Nat) (i : Nat) : Hit :=
  let d := docs.getD i default
  let meta := d.metadata
  let srcName := pathName (meta.source.getD (str "unknown"))
  let secPath := meta.section_path.getD []
  let chunkIdx := meta.chunk_index.getD (meta.chunk_in_section.getD (i : Int))
  { doc := d, score := scoreAt scores i, rank := rank, source := srcName,
    section_path := secPath, chunk_index := chunkIdx, citation := [],
    uid := (srcName, secPath, chunkIdx) }

/-- The rank-assigning loop of `BM25Retriever.topk` over the sorted index
list. -/
def rankHits (docs : List Document) (scores : List Rat) : Nat → List Nat → List Hit
  | _, [] => []
  | r, i :: is => sparseHit docs scores r i :: rankHits docs scores (r + 1) is

/-- `BM25Retriever.topk`: sort all corpus indices by descending score, keep
the first `k`, then assign 1-based ranks. -/
def bm25_topk (docs : List Document) (scores : List Rat) (k : Nat) : List Hit :=
  rankHits docs scores 1 ((sortIdxDesc scores (List.range scores.length)).take k)

/-- The sparse list `RAGEngine._retrieve` hands to `rrf_fuse`: the BM25
top-k filtered by the minimum-score floor, each hit keeping the rank that
`topk` assigned to it before the filter. -/
def sparse_for_fusion (docs : List Document) (scores : List Rat) : List Hit :=
  (bm25_topk docs scores BM25_TOP_K).filter (fun h => BM25_MIN_SCORE ≤ h.score)

/-- The re-ranking `RAGEngine._retrieve` applies to the filtered dense list
(`{**h, "rank": i+1}` over `enumerate`). -/
def reRank : Nat → List Hit → List Hit
  | _, [] => []
  | r, h :: hs => { h with rank := r } :: reRank (r + 1) hs

/-- The dense list `RAGEngine._retrieve` hands to `rrf_fuse`: dense hits
filtered by the cosine floor and then re-ranked consecutively. -/
def dense_for_fusion (hits : List (Document × Rat)) : List Hit :=
  reRank 1 ((topk_with_citations hits).filter (fun h => MIN_COSINE_SIMILARITY ≤ h.score))

/-! Context assembler: `VectorStore.build_context`.  The function reads only
`h["doc"]` of each hit, so it is embedded over the hits' document list. -/

/-- One formatted fragment: `f"[source: {cite}]\n{doc.page_content}\n"`. -/
def fragmentOf (src sec content : Str) : Str :=
  str "[source: " ++ citeOf src sec ++ str "]" ++ str "\n" ++ content ++ str "\n"

/-- The loop of `build_context`: `seen` is the set of coarse keys already
used, `total` the characters consumed so far; returns the kept fragments. -/
def bcLoop (maxc : Nat) : List Document → List (Str × Str) → Nat → List Str
  | [], _, _ => []
  | d :: ds, seen, total =>
    let src := pathName (d.metadata.source.getD (str "Unknown"))
    let sec := pyOr d.metadata.section_path (pyOr d.metadata.sectionName [])
    if (src, sec) ∈ seen then bcLoop maxc ds seen total
    else
      let frag := fragmentOf src sec d.page_content
      if maxc < total + frag.length then []
      else if MAX_DISTINCT_CITATIONS ≤ seen.length + 1 then [frag]
      else frag :: bcLoop maxc ds ((src, sec) :: seen) (total + frag.length)

/-- Python `"\n".join`. -/
def joinNl : List Str → Str
  | [] => []
  | [p] => p
  | p :: q :: ps => p ++ '\n' :: joinNl (q :: ps)

/-- `VectorStore.build_context`: assemble kept fragments, join with newlines,
strip surrounding whitespace. -/
def build_context (docs : List Document) (maxc : Nat) : Str :=
  pyStrip (joinNl (bcLoop maxc docs [] 0))

/-- Total length of a fragment list. -/
def sumLens (ps : List Str) : Nat := ps.foldr (fun p a => p.length + a) 0

/-! Citation guardrail: `CITE_RE = re.compile(r"\[source:\s*[^\]]+\]")` and
`CITE_RE.sub(_keep_first_n, text)` in `RAGEngine.answer`.  Since every
whitespace character is a non-`]` character, `\s*[^\]]+` matches exactly the
non-empty `]`-free strings, so a match is `"[source:"` followed by at least
one non-`]` character followed by the next `]`. -/

/-- The marker head `"[source:"` (also the guard's trigger substring). -/
def sourceTag : Str := str "[source:"

/-- Leftmost-match attempt of `CITE_RE` at the start of `cs`: on success,
the matched marker and the remainder after it. -/
def tryMatch (cs : Str) : Option (Str × Str) :=
  if sourceTag.isPrefixOf cs then
    match (cs.drop 8).findIdx? (fun c => c == ']') with
    | some j => if 1 ≤ j then some (cs.take (9 + j), cs.drop (9 + j)) else none
    | none => none
  else none

/-- `CITE_RE.sub(_keep_first_n, text)`: scan left to right over
non-overlapping matches, keep the first `n` marker occurrences, replace the
rest by the empty string.  Each step consumes at least one character, so fuel
equal to the length of the text suffices. -/
def keepCitesF : Nat → Nat → Str → Str
  | 0, _, cs => cs
  | fuel + 1, n, cs =>
    match tryMatch cs with
    | some (m, rem) =>
      if 0 < n then m ++ keepCitesF fuel (n - 1) rem else keepCitesF fuel 0 rem
    | none =>
      match cs with
      | [] => []
      | c :: rest => c :: keepCitesF fuel n rest

/-- The citation-limiting substitution of `RAGEngine.answer`. -/
def keepCites (n : Nat) (cs : Str) : Str := keepCitesF cs.length n cs

/-- Specification-side decomposition of a text into the leading non-marker
text and the list of (marker, following text) segments, by the same
leftmost non-overlapping scan as the substitution. -/
def citeSplitF : Nat → Str → Str × List (Str × Str)
  | 0, cs => (cs, [])
  | fuel + 1, cs =>
    match tryMatch cs with
    | some (m, rem) =>
      let r := citeSplitF fuel rem
      ([], (m, r.1) :: r.2)
    | none =>
      match cs with
      | [] => ([], [])
      | c :: rest =>
        let r := citeSplitF fuel rest
        (c :: r.1, r.2)

/-- The decomposition of a text into segments at its citation markers. -/
def citeSplit (cs : Str) : Str × List (Str × Str) := citeSplitF cs.length cs

/-- Reassemble segments keeping only the first `n` marker occurrences and all
surrounding text. -/
def rebuildSegs : Nat → List (Str × Str) → Str
  | _, [] => []
  | n, (m, t) :: segs =>
    if 0 < n then m ++ (t ++ rebuildSegs (n - 1) segs) else t ++ rebuildSegs 0 segs

/-- Python `"[source:" in text`: substring containment of the marker head. -/
def hasTag : Str → Bool
  | [] => false
  | c :: rest => sourceTag.isPrefixOf (c :: rest) || hasTag rest

/-! Answer orchestrator: `RAGEngine.answer` and `RAGEngine.answer_stream`
from the retrieval result onward.  `_retrieve` wraps the two external
searchers; its hit list enters as the `hits` parameter, of which `answer`
reads only emptiness and each hit's `"doc"` field, so the parameter is the
document list.  The LLM call is the external capability `gen`, modelled as a
function from the assembled context (the part of the prompt that varies
here) to the generated text; the exception path of `generate` is not taken
in this model. -/

/-- `DEFAULT_REFUSAL` from `rag_system.py`. -/
def DEFAULT_REFUSAL : Str :=
  str "I couldn’t find this in the documents you provided. Try uploading the relevant file(s) or asking a more specific question."

/-- Observable outcome of one `answer` call: the returned string, how many
times the generation capability was invoked, and with which assembled
context. -/
structure AnswerOut where
  result : Str
  genCalls : Nat
  genContext : Option Str
deriving DecidableEq

/-- `RAGEngine.answer` after `_retrieve`: refuse on an empty hit list,
otherwise assemble the context, generate, and apply the two guardrails
(no-citation nudge, then citation limiting) and the final strip. -/
def answer (hits : List Document) (gen : Str → Str) (refusal_message : Option Str) : AnswerOut :=
  if hits.isEmpty then
    { result := pyOr refusal_message DEFAULT_REFUSAL, genCalls := 0, genContext := none }
  else
    let context := build_context hits MAX_CONTEXT_LENGTH
    let text := gen context
    let t1 := if hasTag text then text else pyStrip text ++ str "\n\n" ++ DEFAULT_REFUSAL
    { result := pyStrip (keepCites MAX_DISTINCT_CITATIONS t1), genCalls := 1,
      genContext := some context }

/-- `RAGEngine.answer_stream` after `_retrieve`, as the list of yielded
fragments.  Modelled from the spec: the generation capability's streaming
interface (`ChatLLM.generate_stream`, whose streaming-capable client lives
under `rag_chatbot/llm/`, outside the embedded sources) is the external
capability `gen_stream`, a lazy finite sequence of text fragments per
prompt, modelled as a function from the assembled context to the fragment
list. -/
def answer_stream (hits : List Document) (gen_stream : Str → List Str)
    (refusal_message : Option Str) : List Str :=
  if hits.isEmpty then [pyOr refusal_message DEFAULT_REFUSAL]
  else gen_stream (build_context hits MAX_CONTEXT_LENGTH)

/-! Fusion engine: `rrf_fuse` from `hybrid_retriever.py`.  The Python `fused`
dict is insertion-ordered; it is modelled as an association list to which new
keys are appended at the end. -/

/-- A fused hit record. -/
structure FHit where
  doc : Document
  source : Str
  section_path : Str
  chunk_index : Int
  citation : Str
  dense_score : Option Rat
  sparse_score : Option Rat
  rrf_score : Rat
deriving DecidableEq

/-- The RRF contribution `1.0 / (config.RRF_K + rank)` of a hit. -/
def contribOf (h : Hit) : Rat := 1 / ((RRF_K : Rat) + (h.rank : Rat))

/-- A fresh `fused[uid]` entry, before its first `rrf_score` increment. -/
def newEntry (h : Hit) : FHit :=
  { doc := h.doc, source := h.source, section_path := h.section_path,
    chunk_index := h.chunk_index, citation := h.citation,
    dense_score := none, sparse_score := none, rrf_score := 0 }

/-- Record the per-ranker score on the entry (`kindDense` true for the dense
list). -/
def setScore (kindDense : Bool) (s : Rat) (e : FHit) : FHit :=
  if kindDense then { e with dense_score := some s } else { e with sparse_score := some s }

/-- Process one hit of `add_list`: increment (or create) its uid's entry and
record the ranker score. -/
def upsert (kindDense : Bool) (h : Hit) : List (UID × FHit) → List (UID × FHit)
  | [] =>
    [(h.uid, setScore kindDense h.score
      { newEntry h with rrf_score := (newEntry h).rrf_score + contribOf h })]
  | (u, e) :: rest =>
    if u = h.uid then
      (u, setScore kindDense h.score { e with rrf_score := e.rrf_score + contribOf h }) :: rest
    else (u, e) :: upsert kindDense h rest

/-- `add_list(hits, kind)` over the insertion-ordered table. -/
def addAll (kindDense : Bool) (hs : List Hit) (fused : List (UID × FHit)) : List (UID × FHit) :=
  hs.foldl (fun acc h => upsert kindDense h acc) fused

/-- Stable descending insertion by fused score (`items.sort(key=...,
reverse=True)` keeps equal-score items in insertion order). -/
def insertDescF (x : FHit) : List FHit → List FHit
  | [] => [x]
  | y :: ys => if y.rrf_score ≤ x.rrf_score then x :: y :: ys else y :: insertDescF x ys

/-- Stable descending sort by fused score. -/
def sortDescF : List FHit → List FHit
  | [] => []
  | x :: xs => insertDescF x (sortDescF xs)

/-- `rrf_fuse(dense_hits, sparse_hits)`: accumulate RRF contributions per
uid (dense list first), sort descending by fused score, truncate. -/
def rrf_fuse (dense_hits sparse_hits : List Hit) : List FHit :=
  (sortDescF ((addAll false sparse_hits (addAll true dense_hits [])).map (fun p => p.2))).take
    FUSED_TOP_K

/-! Concrete inputs used by the witnesses and counterexamples. -/

/-- Metadata with no keys set. -/
def emptyMeta : Metadata := ⟨none, none, none, none, none⟩

/-- A document with only content and a source path. -/
def mkDoc (content src : String) : Document :=
  ⟨str content, { emptyMeta with source := some (str src) }⟩

/-- Corpus document 0 for the uid-mismatch input: no chunk metadata. -/
def d0 : Document := mkDoc "alpha beta" "doc.md"

/-- Corpus document 1 for the uid-mismatch input: no chunk metadata. -/
def d1 : Document := mkDoc "gamma delta" "doc.md"

/-- The two-document corpus of the uid-mismatch input. -/
def docs01 : List Document := [d0, d1]

/-- Budget counterexample documents: three distinct one-character sources. -/
def da : Document := mkDoc "X" "a"
def db : Document := mkDoc "X" "b"
def dc : Document := mkDoc "X" "c"

/-- A document whose single fragment exceeds the context budget. -/
def dBig : Document := ⟨List.replicate MAX_CONTEXT_LENGTH 'x',
  { emptyMeta with source := some (str "a.md") }⟩

/-- A document with a section path, for the citation wire-format check. -/
def dSec : Document := ⟨str "Body",
  { emptyMeta with source := some (str "a.md"), section_path := some (str "Intro") }⟩

/-- A document without a section path, for the citation wire-format check. -/
def dNoSec : Document := ⟨str "Body", { emptyMeta with source := some (str "a.md") }⟩

/-- A generation capability returning a fixed short answer. -/
def gen0 : Str → Str := fun _ => str "ok"

/-- A generation capability returning four markers, the second a duplicate
of the first. -/
def genC4 : Str → Str :=
  fun _ => str "a[source: x]b[source: x]c[source: y]d[source: z]e"

/-- A generation capability returning text with the trigger substring but no
complete marker. -/
def genPartial : Str → Str := fun _ => str "see [source: x"

/-- A streaming generation capability returning two fixed fragments. -/
def gsDemo : Str → List Str := fun _ => [str "Hello", str " world"]

/-- Scenario passage P1 (distinct chunk index 0). -/
def P1 : Document := ⟨str "p1", { emptyMeta with source := some (str "d.md"), chunk_index := some 0 }⟩

/-- Scenario passage P2 (distinct chunk index 1). -/
def P2 : Document := ⟨str "p2", { emptyMeta with source := some (str "d.md"), chunk_index := some 1 }⟩

/-- Scenario passage P3 (distinct chunk index 2). -/
def P3 : Document := ⟨str "p3", { emptyMeta with source := some (str "d.md"), chunk_index := some 2 }⟩

/-- A fusion-input hit for a scenario passage at a given rank. -/
def mkFuseHit (d : Document) (rank : Nat) : Hit :=
  { doc := d, score := 1, rank := rank, source := str "d.md", section_path := [],
    chunk_index := d.metadata.chunk_index.getD 0, citation := [],
    uid := (str "d.md", [], d.metadata.chunk_index.getD 0) }

/-- Dense input of the RRF scenario: P1 at rank 1, P2 at rank 2. -/
def denseDemo : List Hit := [mkFuseHit P1 1, mkFuseHit P2 2]

/-- Sparse input of the RRF scenario: P2 at rank 1, P3 at rank 2. -/
def sparseDemo : List Hit := [mkFuseHit P2 1, mkFuseHit P3 2]

/-! Correspondence between the citation-limiting substitution and the
segment decomposition: the substitution keeps the leading text, the first
`n` marker occurrences each followed by its trailing text, and the trailing
texts (only) of all later markers. -/

theorem keepCitesF_split (fuel : Nat) :
    ∀ (n : Nat) (cs : Str),
      keepCitesF fuel n cs = (citeSplitF fuel cs).1 ++ rebuildSegs n (citeSplitF fuel cs).2 := by
  induction fuel with
  | zero => intro n cs; simp [keepCitesF, citeSplitF, rebuildSegs]
  | succ fuel ih =>
    intro n cs
    cases h : tryMatch cs with
    | some p =>
      obtain ⟨m, rem⟩ := p
      simp only [keepCitesF, citeSplitF, h, rebuildSegs]
      by_cases hn : 0 < n
      · simp [hn, ih]
      · simp [hn, ih]
    | none =>
      cases cs with
      | nil => simp [keepCitesF, citeSplitF, h, rebuildSegs]
      | cons c rest =>
        simp only [keepCitesF, citeSplitF, h]
        simp [ih]

/-- C4 (amended): for every generated text and limit `n`, the guarded
substitution keeps the leading non-marker text, the first `n` citation-marker
occurrences (duplicates counted separately) in left-to-right order together
with their surrounding prose, and deletes every later marker occurrence while
keeping its surrounding prose; when the first `n` occurrences are pairwise
distinct (as in the five-distinct-markers scenario) this coincides with
keeping the first `n` distinct markers. -/
theorem c4_amended_keep_first_occurrences (n : Nat) (cs : Str) :
    keepCites n cs = (citeSplit cs).1 ++ rebuildSegs n (citeSplit cs).2 :=
  keepCitesF_split cs.length n cs

/-- C4 (counterexample): on generated text with markers `x, x, y, z` and
limit 3, `answer` keeps the duplicate second `x` and deletes `z`, so the
output does not consist of the first three distinct markers. -/
theorem c4_counterexample :
    (answer [da] genC4 none).result = str "a[source: x]b[source: x]c[source: y]de"
    ∧ (answer [da] genC4 none).result ≠ str "a[source: x]bc[source: y]d[source: z]e" := by
  constructor
  · decide
  · decide

/-- C1: evaluation at the failing input.  Both rankers retrieve passage `d1`
(corpus index 1, dense rank 1, no chunk metadata); the dense ranker falls
back to `rank - 1 = 0` while the sparse ranker falls back to the corpus
index `1`, so the two PassageKeys for the same underlying passage differ. -/
theorem c1_uid_divergence :
    (topk_with_citations [(d1, 1)]).map (fun h => (h.doc, h.uid)) =
      [(d1, (str "doc.md", [], 0))]
    ∧ (bm25_topk docs01 [0, 5] 20).map (fun h => (h.doc, h.uid)) =
      [(d1, (str "doc.md", [], 1)), (d0, (str "doc.md", [], 0))]
    ∧ ((str "doc.md", ([] : Str), (0 : Int)) : UID) ≠ (str "doc.md", [], 1) := by
  refine ⟨by decide, by decide, by decide⟩

/-- C2 (counterexample): three fragments of length 14 each fit a budget of
42, but the two joining newlines push the assembled context to length 43
(44 joined, minus one trailing newline trimmed), exceeding the budget. -/
theorem c2_counterexample :
    ¬ ((build_context [da, db, dc] 42).length ≤ 42) := by decide

/-- C6: evaluation at the failing input.  With a non-empty section path the
assembled citation header is `[source: a.md ยงIntro]` — a space followed by
the two Thai characters U+0E22 U+0E07 — and not the spec wire format
`[source: a.md §Intro]` with U+00A7; with an empty section path the header
`[source: a.md]` is as specified. -/
theorem c6_wire_format_mojibake :
    build_context [dSec] MAX_CONTEXT_LENGTH = str "[source: a.md ยงIntro]\nBody"
    ∧ build_context [dSec] MAX_CONTEXT_LENGTH ≠ str "[source: a.md §Intro]\nBody"
    ∧ build_context [dNoSec] MAX_CONTEXT_LENGTH = str "[source: a.md]\nBody" := by
  refine ⟨by decide, by decide, by decide⟩

/-! Length accounting for `build_context`: the loop keeps the sum of the
fragment lengths within the budget and keeps at most three fragments, the
join adds one newline between fragments, and the final strip removes at
least the trailing newline of the last fragment. -/

theorem length_dropWhile_le_self (p : Char → Bool) (l : Str) :
    (l.dropWhile p).length ≤ l.length := by
  induction l with
  | nil => simp
  | cons a t ih =>
    by_cases h : p a
    · simp only [List.dropWhile_cons, h, if_true, List.length_cons]; omega
    · simp [List.dropWhile_cons, h]

theorem sumLens_nil : sumLens [] = 0 := rfl

theorem sumLens_cons (p : Str) (ps : List Str) :
    sumLens (p :: ps) = p.length + sumLens ps := rfl

theorem bc_sum (maxc : Nat) :
    ∀ (ds : List Document) (seen : List (Str × Str)) (total : Nat),
      total ≤ maxc → total + sumLens (bcLoop maxc ds seen total) ≤ maxc := by
  intro ds
  induction ds with
  | nil => intro seen total h; simpa [bcLoop, sumLens] using h
  | cons d ds ih =>
    intro seen total h
    simp only [bcLoop]
    by_cases hmem :
        (pathName (d.metadata.source.getD (str "Unknown")),
          pyOr d.metadata.section_path (pyOr d.metadata.sectionName [])) ∈ seen
    · rw [if_pos hmem]; exact ih seen total h
    · rw [if_neg hmem]
      by_cases hover : maxc < total +
          (fragmentOf (pathName (d.metadata.source.getD (str "Unknown")))
            (pyOr d.metadata.section_path (pyOr d.metadata.sectionName []))
            d.page_content).length
      · rw [if_pos hover]; simpa [sumLens] using h
      · rw [if_neg hover]
        by_cases hstop : MAX_DISTINCT_CITATIONS ≤ seen.length + 1
        · rw [if_pos hstop]; simp only [sumLens_cons, sumLens_nil]; omega
        · rw [if_neg hstop]
          have hrec := ih
            ((pathName (d.metadata.source.getD (str "Unknown")),
              pyOr d.metadata.section_path (pyOr d.metadata.sectionName [])) :: seen)
            (total +
              (fragmentOf (pathName (d.metadata.source.getD (str "Unknown")))
                (pyOr d.metadata.section_path (pyOr d.metadata.sectionName []))
                d.page_content).length)
            (by omega)
          simp only [sumLens_cons]
          omega

theorem bc_count (maxc : Nat) :
    ∀ (ds : List Document) (seen : List (Str × Str)) (total : Nat),
      seen.length + 1 ≤ MAX_DISTINCT_CITATIONS →
      (bcLoop maxc ds seen total).length + seen.length ≤ MAX_DISTINCT_CITATIONS := by
  intro ds
  induction ds with
  | nil => intro seen total h; simp [bcLoop]; omega
  | cons d ds ih =>
    intro seen total h
    simp only [bcLoop]
    by_cases hmem :
        (pathName (d.metadata.source.getD (str "Unknown")),
          pyOr d.metadata.section_path (pyOr d.metadata.sectionName [])) ∈ seen
    · rw [if_pos hmem]; exact ih seen total h
    · rw [if_neg hmem]
      by_cases hover : maxc < total +
          (fragmentOf (pathName (d.metadata.source.getD (str "Unknown")))
            (pyOr d.metadata.section_path (pyOr d.metadata.sectionName []))
            d.page_content).length
      · rw [if_pos hover]; simp; omega
      · rw [if_neg hover]
        by_cases hstop : MAX_DISTINCT_CITATIONS ≤ seen.length + 1
        · rw [if_pos hstop]; simp; omega
        · rw [if_neg hstop]
          have hrec := ih
            ((pathName (d.metadata.source.getD (str "Unknown")),
              pyOr d.metadata.section_path (pyOr d.metadata.sectionName [])) :: seen)
            (total +
              (fragmentOf (pathName (d.metadata.source.getD (str "Unknown")))
                (pyOr d.metadata.section_path (pyOr d.metadata.sectionName []))
                d.page_content).length)
            (by simp at hstop ⊢; omega)
          simp at hrec ⊢
          omega

theorem fragment_ends_nl (src sec content : Str) :
    ∃ q, fragmentOf src sec content = q ++ ['\n'] := by
  refine ⟨str "[source: " ++ citeOf src sec ++ str "]" ++ str "\n" ++ content, ?_⟩
  have h : str "\n" = ['\n'] := rfl
  simp [fragmentOf, h, List.append_assoc]

theorem bc_ends (maxc : Nat) :
    ∀ (ds : List Document) (seen : List (Str × Str)) (total : Nat),
      ∀ p ∈ bcLoop maxc ds seen total, ∃ q, p = q ++ ['\n'] := by
  intro ds
  induction ds with
  | nil => intro seen total p hp; simp [bcLoop] at hp
  | cons d ds ih =>
    intro seen total p hp
    simp only [bcLoop] at hp
    by_cases hmem :
        (pathName (d.metadata.source.getD (str "Unknown")),
          pyOr d.metadata.section_path (pyOr d.metadata.sectionName [])) ∈ seen
    · rw [if_pos hmem] at hp; exact ih seen total p hp
    · rw [if_neg hmem] at hp
      by_cases hover : maxc < total +
          (fragmentOf (pathName (d.metadata.source.getD (str "Unknown")))
            (pyOr d.metadata.section_path (pyOr d.metadata.sectionName []))
            d.page_content).length
      · rw [if_pos hover] at hp; simp at hp
      · rw [if_neg hover] at hp
        by_cases hstop : MAX_DISTINCT_CITATIONS ≤ seen.length + 1
        · rw [if_pos hstop] at hp
          simp at hp
          exact hp ▸ fragment_ends_nl _ _ _
        · rw [if_neg hstop] at hp
          simp only [List.mem_cons] at hp
          rcases hp with hp | hp
          · exact hp ▸ fragment_ends_nl _ _ _
          · exact ih _ _ p hp

theorem joinNl_length (ps : List Str) (h : ps ≠ []) :
    (joinNl ps).length + 1 = sumLens ps + ps.length := by
  induction ps with
  | nil => simp at h
  | cons p qs ih =>
    cases qs with
    | nil => simp [joinNl, sumLens]
    | cons q rs =>
      have hne : q :: rs ≠ [] := by simp
      have := ih hne
      simp only [joinNl, List.length_append, List.length_cons, sumLens_cons] at this ⊢
      omega

theorem joinNl_ends (ps : List Str) (h : ps ≠ [])
    (hend : ∀ p ∈ ps, ∃ q, p = q ++ ['\n']) : ∃ q, joinNl ps = q ++ ['\n'] := by
  induction ps with
  | nil => simp at h
  | cons p qs ih =>
    cases qs with
    | nil => simpa [joinNl] using hend p (by simp)
    | cons q rs =>
      obtain ⟨q', hq'⟩ := ih (by simp) (fun r hr => hend r (by simp [hr]))
      refine ⟨p ++ '\n' :: q', ?_⟩
      simp [joinNl, hq', List.append_assoc]

theorem stripRight_snoc_nl (q : Str) : (stripRight (q ++ ['\n'])).length ≤ q.length := by
  have h1 : (q ++ ['\n']).reverse = '\n' :: q.reverse := by simp
  have h2 : Char.isWhitespace '\n' = true := rfl
  calc (stripRight (q ++ ['\n'])).length
      = ((q ++ ['\n']).reverse.dropWhile Char.isWhitespace).length := by
        simp [stripRight]
    _ = (q.reverse.dropWhile Char.isWhitespace).length := by
        rw [h1, List.dropWhile_cons, h2]; simp
    _ ≤ q.reverse.length := length_dropWhile_le_self _ _
    _ = q.length := by simp

/-- C2 (amended): for every hit sequence and character budget, the sum of
the lengths of the kept fragments is at most `max_chars`, but the joining
newlines between the (at most three) kept fragments are not counted against
the budget; after the final trim removes the trailing newline the assembled
context can exceed the budget by at most one character. -/
theorem c2_amended_budget (docs : List Document) (maxc : Nat) :
    (build_context docs maxc).length ≤ maxc + 1 := by
  unfold build_context
  rcases hps : bcLoop maxc docs [] 0 with _ | ⟨p, ps⟩
  · simp [joinNl, pyStrip, stripRight]
  · have hne : p :: ps ≠ [] := by simp
    have hsum : 0 + sumLens (p :: ps) ≤ maxc := hps ▸ bc_sum maxc docs [] 0 (Nat.zero_le maxc)
    have hcnt : (p :: ps).length + ([] : List (Str × Str)).length ≤ MAX_DISTINCT_CITATIONS :=
      hps ▸ bc_count maxc docs [] 0 (by simp [MAX_DISTINCT_CITATIONS])
    have hends : ∀ r ∈ p :: ps, ∃ q, r = q ++ ['\n'] :=
      fun r hr => bc_ends maxc docs [] 0 r (hps ▸ hr)
    obtain ⟨q, hq⟩ := joinNl_ends (p :: ps) hne hends
    have hlen := joinNl_length (p :: ps) hne
    have hq_len : q.length + 1 = (joinNl (p :: ps)).length := by
      rw [hq]; simp
    have hstrip : (pyStrip (joinNl (p :: ps))).length ≤ q.length := by
      calc (pyStrip (joinNl (p :: ps))).length
          ≤ (stripRight (joinNl (p :: ps))).length := length_dropWhile_le_self _ _
        _ = (stripRight (q ++ ['\n'])).length := by rw [hq]
        _ ≤ q.length := stripRight_snoc_nl q
    simp only [MAX_DISTINCT_CITATIONS, List.length_nil, Nat.add_zero] at hcnt
    omega

/-- C3 (amended): `answer` invokes the generation capability exactly when
retrieval returns a non-empty hit list — on an empty hit list it returns the
configured refusal (override, or the default when the override is absent or
empty) with zero generation calls; on a non-empty hit list generation is
invoked exactly once, though possibly with an empty context string. -/
theorem c3_generation_iff_hits (hits : List Document) (gen : Str → Str)
    (override : Option Str) :
    (hits = [] → answer hits gen override =
      { result := pyOr override DEFAULT_REFUSAL, genCalls := 0, genContext := none })
    ∧ (hits ≠ [] → (answer hits gen override).genCalls = 1) := by
  constructor
  · intro h; subst h; simp [answer]
  · intro h
    have hne : hits.isEmpty = false := by
      cases hits with
      | nil => simp at h
      | cons a t => simp
    simp [answer, hne]

/-- C3 (witness): the amended theorem applied to an empty and to a singleton
hit list. -/
theorem c3_generation_iff_hits_witness :
    (answer [] gen0 none =
      { result := pyOr none DEFAULT_REFUSAL, genCalls := 0, genContext := none })
    ∧ (answer [da] gen0 none).genCalls = 1 :=
  ⟨(c3_generation_iff_hits [] gen0 none).1 rfl,
   (c3_generation_iff_hits [da] gen0 none).2 (by decide)⟩

theorem fragment_length_amd (content : Str) :
    (fragmentOf (str "a.md") [] content).length = content.length + 16 := by
  have l1 : (str "[source: ").length = 9 := by decide
  have l2 : (str "]").length = 1 := by decide
  have l3 : (str "\n").length = 1 := by decide
  have l4 : (citeOf (str "a.md") []).length = 4 := by decide
  simp only [fragmentOf, List.length_append, l1, l2, l3, l4]
  omega

theorem dBig_fragment_length :
    (fragmentOf (str "a.md") [] dBig.page_content).length = 2516 := by
  have l5 : dBig.page_content.length = 2500 := by
    show (List.replicate MAX_CONTEXT_LENGTH 'x').length = 2500
    rw [List.length_replicate]
    rfl
  rw [fragment_length_amd, l5]

theorem dBig_context_empty : build_context [dBig] MAX_CONTEXT_LENGTH = [] := by
  have hsrc : pathName (dBig.metadata.source.getD (str "Unknown")) = str "a.md" := by decide
  have hsec : pyOr dBig.metadata.section_path (pyOr dBig.metadata.sectionName []) = [] := by
    decide
  have hcond : MAX_CONTEXT_LENGTH < 0 + (fragmentOf (str "a.md") [] dBig.page_content).length := by
    rw [dBig_fragment_length]; norm_num [MAX_CONTEXT_LENGTH]
  have hloop : bcLoop MAX_CONTEXT_LENGTH [dBig] [] 0 = [] := by
    simp only [bcLoop]
    rw [hsrc, hsec]
    rw [if_neg (by simp)]
    rw [if_pos hcond]
  unfold build_context
  rw [hloop]
  rfl

/-- C3 (counterexample): a single retrieved hit whose fragment exceeds the
2500-character budget yields an empty assembled context, and generation is
nevertheless invoked (once) with that empty context string. -/
theorem c3_counterexample :
    (answer [dBig] gen0 none).genCalls = 1
    ∧ (answer [dBig] gen0 none).genContext = some [] := by
  constructor
  · simp [answer]
  · simp [answer, dBig_context_empty]

/-- C5: for every non-empty retrieval result, `answer_stream` is exactly the
fragment sequence produced by the generation capability's streaming
interface on the assembled prompt — in order, unmodified, and ending when
that fragment stream ends. -/
theorem c5_stream_yields_generation_fragments (hits : List Document)
    (gs : Str → List Str) (override : Option Str) (h : hits ≠ []) :
    answer_stream hits gs override = gs (build_context hits MAX_CONTEXT_LENGTH) := by
  have hne : hits.isEmpty = false := by
    cases hits with
    | nil => simp at h
    | cons a t => simp
  simp [answer_stream, hne]

/-- C5 (witness): the theorem applied to a singleton hit list and a two-
fragment stream. -/
theorem c5_stream_witness :
    answer_stream [da] gsDemo none = [str "Hello", str " world"] := by
  rw [c5_stream_yields_generation_fragments [da] gsDemo none (by decide)]
  rfl

/-! Sparse ranks after the floor filter: the BM25 top-k list is sorted by
descending score, so the hits removed by the minimum-score floor form a
suffix, and the surviving hits keep the consecutive 1-based ranks
`1, 2, ..., m`. -/

theorem mem_insertDescIdx (scores : List Rat) (x : Nat) :
    ∀ (l : List Nat) (a : Nat), a ∈ insertDescIdx scores x l → a = x ∨ a ∈ l := by
  intro l
  induction l with
  | nil => intro a ha; simp [insertDescIdx] at ha; exact Or.inl ha
  | cons y ys ih =>
    intro a ha
    simp only [insertDescIdx] at ha
    by_cases hc : scoreAt scores y ≤ scoreAt scores x
    · rw [if_pos hc] at ha
      rcases List.mem_cons.mp ha with h | h
      · exact Or.inl h
      · exact Or.inr h
    · rw [if_neg hc] at ha
      rcases List.mem_cons.mp ha with h | h
      · exact Or.inr (by simp [h])
      · rcases ih a h with h' | h'
        · exact Or.inl h'
        · exact Or.inr (by simp [h'])

theorem pairwise_insertDescIdx (scores : List Rat) (x : Nat) :
    ∀ (l : List Nat),
      l.Pairwise (fun i j => scoreAt scores j ≤ scoreAt scores i) →
      (insertDescIdx scores x l).Pairwise (fun i j => scoreAt scores j ≤ scoreAt scores i) := by
  intro l
  induction l with
  | nil => intro _; simp [insertDescIdx]
  | cons y ys ih =>
    intro h
    rcases List.pairwise_cons.mp h with ⟨hy, hys⟩
    simp only [insertDescIdx]
    by_cases hc : scoreAt scores y ≤ scoreAt scores x
    · rw [if_pos hc]
      refine List.pairwise_cons.mpr ⟨?_, h⟩
      intro b hb
      rcases List.mem_cons.mp hb with rfl | hb'
      · exact hc
      · exact le_trans (hy b hb') hc
    · rw [if_neg hc]
      refine List.pairwise_cons.mpr ⟨?_, ih hys⟩
      intro b hb
      rcases mem_insertDescIdx scores x ys b hb with rfl | hb'
      · exact (not_le.mp hc).le
      · exact hy b hb'

theorem pairwise_sortIdxDesc (scores : List Rat) :
    ∀ (l : List Nat),
      (sortIdxDesc scores l).Pairwise (fun i j => scoreAt scores j ≤ scoreAt scores i) := by
  intro l
  induction l with
  | nil => simp [sortIdxDesc]
  | cons x xs ih => exact pairwise_insertDescIdx scores x _ ih

theorem map_score_rankHits (docs : List Document) (scores : List Rat) :
    ∀ (r : Nat) (l : List Nat),
      (rankHits docs scores r l).map (fun h => h.score) = l.map (scoreAt scores) := by
  intro r l
  induction l generalizing r with
  | nil => simp [rankHits]
  | cons i is ih => simp [rankHits, sparseHit, ih]

theorem pairwise_rankHits (docs : List Document) (scores : List Rat) :
    ∀ (r : Nat) (l : List Nat),
      l.Pairwise (fun i j => scoreAt scores j ≤ scoreAt scores i) →
      (rankHits docs scores r l).Pairwise (fun a b => b.score ≤ a.score) := by
  intro r l
  induction l generalizing r with
  | nil => intro _; simp [rankHits]
  | cons i is ih =>
    intro h
    rcases List.pairwise_cons.mp h with ⟨hi, his⟩
    simp only [rankHits]
    refine List.pairwise_cons.mpr ⟨?_, ih (r + 1) his⟩
    intro b hb
    have hmem : b.score ∈ (rankHits docs scores (r + 1) is).map (fun h => h.score) :=
      List.mem_map_of_mem _ hb
    rw [map_score_rankHits] at hmem
    rcases List.mem_map.mp hmem with ⟨j, hj, hscore⟩
    have hhead : (sparseHit docs scores r i).score = scoreAt scores i := rfl
    rw [hhead, ← hscore]
    exact hi j hj

theorem map_rank_rankHits (docs : List Document) (scores : List Rat) :
    ∀ (r : Nat) (l : List Nat),
      (rankHits docs scores r l).map (fun h => h.rank) = List.range' r l.length := by
  intro r l
  induction l generalizing r with
  | nil => simp [rankHits]
  | cons i is ih =>
    simp only [rankHits, List.map_cons, List.length_cons, List.range'_succ]
    have hhead : (sparseHit docs scores r i).rank = r := rfl
    rw [hhead, ih (r + 1)]

theorem length_rankHits (docs : List Document) (scores : List Rat) :
    ∀ (r : Nat) (l : List Nat), (rankHits docs scores r l).length = l.length := by
  intro r l
  induction l generalizing r with
  | nil => simp [rankHits]
  | cons i is ih => simp [rankHits, ih]

theorem filter_floor_eq_takeWhile (m : Rat) :
    ∀ (l : List Hit), l.Pairwise (fun a b => b.score ≤ a.score) →
      l.filter (fun h => m ≤ h.score) = l.takeWhile (fun h => m ≤ h.score) := by
  intro l
  induction l with
  | nil => intro _; simp
  | cons a t ih =>
    intro h
    rcases List.pairwise_cons.mp h with ⟨ha, ht⟩
    by_cases hm : m ≤ a.score
    · simp [List.filter_cons, List.takeWhile_cons, hm, ih ht]
    · have hfilter : t.filter (fun h => m ≤ h.score) = [] := by
        rw [List.filter_eq_nil_iff]
        intro b hb
        have : ¬ (m ≤ b.score) := fun hmb => hm (hmb.trans (ha b hb))
        simp [this]
      simp [List.filter_cons, List.takeWhile_cons, hm, hfilter]

theorem takeWhile_rankHits (docs : List Document) (scores : List Rat) (m : Rat) :
    ∀ (r : Nat) (l : List Nat),
      (rankHits docs scores r l).takeWhile (fun h => m ≤ h.score) =
        rankHits docs scores r (l.takeWhile (fun i => m ≤ scoreAt scores i)) := by
  intro r l
  induction l generalizing r with
  | nil => simp [rankHits]
  | cons i is ih =>
    have hs : (sparseHit docs scores r i).score = scoreAt scores i := rfl
    by_cases hm : m ≤ scoreAt scores i
    · simp [rankHits, List.takeWhile_cons, hs, hm, ih]
    · simp [rankHits, List.takeWhile_cons, hs, hm]

/-- C7: for every corpus and score assignment, the rank values carried by
the sparse hits that survive the BM25 minimum-score floor — the rank values
the fusion engine receives — are 1-based and consecutive: because the top-k
list is sorted by descending score, the floored-out hits form a suffix, so
the observable ranks equal those of floor-before-rank assignment and no
removed hit occupies a rank used for the `1/(K + rank)` contribution. -/
theorem c7_sparse_ranks_consecutive (docs : List Document) (scores : List Rat) :
    (sparse_for_fusion docs scores).map (fun h => h.rank) =
      List.range' 1 (sparse_for_fusion docs scores).length := by
  have hpw_idx : ((sortIdxDesc scores (List.range scores.length)).take BM25_TOP_K).Pairwise
      (fun i j => scoreAt scores j ≤ scoreAt scores i) :=
    (pairwise_sortIdxDesc scores (List.range scores.length)).sublist
      (List.take_sublist BM25_TOP_K _)
  have hpw : (bm25_topk docs scores BM25_TOP_K).Pairwise (fun a b : Hit => b.score ≤ a.score) :=
    pairwise_rankHits docs scores 1 _ hpw_idx
  unfold sparse_for_fusion
  rw [filter_floor_eq_takeWhile BM25_MIN_SCORE _ hpw]
  unfold bm25_topk
  rw [takeWhile_rankHits, map_rank_rankHits, length_rankHits]

/-! The RRF scenario: evaluating `rrf_fuse` on dense `[P1 rank 1, P2 rank 2]`
and sparse `[P2 rank 1, P3 rank 2]`. -/

theorem rrf_demo_eval :
    (rrf_fuse denseDemo sparseDemo).map (fun h => (h.doc, h.rrf_score)) =
      [(P2, 1/62 + 1/61), (P1, 1/61), (P3, 1/62)] := by
  norm_num [rrf_fuse, addAll, upsert, newEntry, setScore, contribOf, sortDescF, insertDescF,
    denseDemo, sparseDemo, mkFuseHit, FUSED_TOP_K, RRF_K, List.foldl, P1, P2, P3, emptyMeta]

/-- C8 (counterexample): the claimed fused score `P2 = 1/61 + 1/61` is wrong
on the code: P2 sits at dense rank 2, so its dense contribution is
`1/(60+2)` and its fused score is `1/62 + 1/61`. -/
theorem c8_counterexample :
    (rrf_fuse denseDemo sparseDemo).map (fun h => (h.doc, h.rrf_score)) ≠
      [(P2, 1/61 + 1/61), (P1, 1/61), (P3, 1/62)] := by
  rw [rrf_demo_eval]
  norm_num

/-- C8 (amended): with K = 60, fusing dense `[P1 rank 1, P2 rank 2]` with
sparse `[P2 rank 1, P3 rank 2]` yields fused scores `P2 = 1/62 + 1/61`
(highest; the dense rank-2 hit contributes `1/(60+2)`), `P1 = 1/61`,
`P3 = 1/62`, and the fused order `[P2, P1, P3]`. -/
theorem c8_amended_scenario :
    (rrf_fuse denseDemo sparseDemo).map (fun h => (h.doc, h.rrf_score)) =
      [(P2, 1/62 + 1/61), (P1, 1/61), (P3, 1/62)] := rrf_demo_eval

/-! No-citation guardrail: the trigger is substring containment of
`"[source:"`, and a tag-free text passes through the citation-limiting
substitution unchanged. -/

theorem isPrefixOf_cons_cons (a b : Char) (as bs : Str) :
    (a :: as).isPrefixOf (b :: bs) = ((a == b) && as.isPrefixOf bs) := rfl

theorem isPrefixOf_extend :
    ∀ (tag X Y : Str), tag.isPrefixOf X = true → tag.isPrefixOf (X ++ Y) = true := by
  intro tag
  induction tag with
  | nil => intro X Y _; simp [List.isPrefixOf]
  | cons c cs ih =>
    intro X Y h
    cases X with
    | nil => simp [List.isPrefixOf] at h
    | cons b bs =>
      rw [isPrefixOf_cons_cons, Bool.and_eq_true] at h
      rw [List.cons_append, isPrefixOf_cons_cons, Bool.and_eq_true]
      exact ⟨h.1, ih bs Y h.2⟩

theorem isPrefixOf_of_append (tag : Str) :
    ∀ (X Y : Str), tag.isPrefixOf (X ++ Y) = true → tag.length ≤ X.length →
      tag.isPrefixOf X = true := by
  induction tag with
  | nil => intro X Y _ _; simp [List.isPrefixOf]
  | cons c cs ih =>
    intro X Y h hl
    cases X with
    | nil => simp at hl
    | cons b bs =>
      rw [List.cons_append, isPrefixOf_cons_cons, Bool.and_eq_true] at h
      simp only [List.length_cons] at hl
      rw [isPrefixOf_cons_cons, Bool.and_eq_true]
      exact ⟨h.1, ih bs Y h.2 (by omega)⟩

theorem tag_no_newline_span (tag : Str) (hnl : '\n' ∉ tag) :
    ∀ (s t : Str), tag.isPrefixOf (s ++ '\n' :: t) = true → tag.length ≤ s.length := by
  induction tag with
  | nil => intro s t _; simp
  | cons c cs ih =>
    intro s t h
    cases s with
    | nil =>
      rw [List.nil_append, isPrefixOf_cons_cons, Bool.and_eq_true] at h
      have hc : c = '\n' := by simpa using h.1
      exact absurd (List.mem_cons.mpr (Or.inl hc.symm)) hnl
    | cons b bs =>
      rw [List.cons_append, isPrefixOf_cons_cons, Bool.and_eq_true] at h
      have hnl' : '\n' ∉ cs := fun hm => hnl (List.mem_cons.mpr (Or.inr hm))
      have := ih hnl' bs t h.2
      simp only [List.length_cons]
      omega

theorem hasTag_append_left :
    ∀ (X Y : Str), hasTag X = true → hasTag (X ++ Y) = true := by
  intro X
  induction X with
  | nil => intro Y h; simp [hasTag] at h
  | cons c rest ih =>
    intro Y h
    simp only [hasTag, Bool.or_eq_true] at h
    rw [List.cons_append]
    simp only [hasTag, Bool.or_eq_true]
    rcases h with h1 | h2
    · have := isPrefixOf_extend sourceTag (c :: rest) Y h1
      rw [List.cons_append] at this
      exact Or.inl this
    · exact Or.inr (ih Y h2)

theorem hasTag_dropWhile (p : Char → Bool) :
    ∀ (l : Str), hasTag l = false → hasTag (l.dropWhile p) = false := by
  intro l
  induction l with
  | nil => intro h; simpa using h
  | cons c rest ih =>
    intro h
    simp only [hasTag, Bool.or_eq_false_iff] at h
    rw [List.dropWhile_cons]
    by_cases hp : p c
    · simp only [hp, if_true]
      exact ih h.2
    · simp only [hp, if_false]
      simp [hasTag, h.1, h.2]

theorem dropWhile_decomp (p : Char → Bool) :
    ∀ (l : Str), ∃ pre, l = pre ++ l.dropWhile p := by
  intro l
  induction l with
  | nil => exact ⟨[], rfl⟩
  | cons c rest ih =>
    rw [List.dropWhile_cons]
    by_cases hp : p c
    · obtain ⟨pre, hpre⟩ := ih
      refine ⟨c :: pre, ?_⟩
      simp only [hp, if_true, List.cons_append]
      exact congrArg (c :: ·) hpre
    · exact ⟨[], by simp [hp]⟩

theorem hasTag_stripRight (cs : Str) (h : hasTag cs = false) :
    hasTag (stripRight cs) = false := by
  cases h' : hasTag (stripRight cs) with
  | false => rfl
  | true =>
    obtain ⟨pre, hpre⟩ := dropWhile_decomp Char.isWhitespace cs.reverse
    have hcs : cs = stripRight cs ++ pre.reverse := by
      have h2 := congrArg List.reverse hpre
      simpa [stripRight, List.reverse_append] using h2
    have h3 := hasTag_append_left (stripRight cs) pre.reverse h'
    rw [← hcs, h] at h3
    exact absurd h3 (by simp)

theorem hasTag_pyStrip (cs : Str) (h : hasTag cs = false) : hasTag (pyStrip cs) = false :=
  hasTag_dropWhile _ _ (hasTag_stripRight cs h)

theorem hasTag_append_guard (A R : Str) (hA : hasTag A = false)
    (hR : hasTag ('\n' :: R) = false) : hasTag (A ++ '\n' :: R) = false := by
  induction A with
  | nil => simpa using hR
  | cons c A' ih =>
    simp only [hasTag, Bool.or_eq_false_iff] at hA
    rw [List.cons_append]
    simp only [hasTag, Bool.or_eq_false_iff]
    refine ⟨?_, ih hA.2⟩
    cases hpf : sourceTag.isPrefixOf (c :: (A' ++ '\n' :: R)) with
    | false => rfl
    | true =>
      have hpf' : sourceTag.isPrefixOf ((c :: A') ++ '\n' :: R) = true := by
        rw [List.cons_append]
        exact hpf
      have h8 : sourceTag.length = 8 := by decide
      by_cases hlen : 8 ≤ (c :: A').length
      · have := isPrefixOf_of_append sourceTag (c :: A') ('\n' :: R) hpf' (by omega)
        rw [hA.1] at this
        exact absurd this (by simp)
      · have hnl : '\n' ∉ sourceTag := by decide
        have := tag_no_newline_span sourceTag hnl (c :: A') R hpf'
        rw [h8] at this
        exact absurd this hlen

theorem keepCitesF_no_tag :
    ∀ (fuel n : Nat) (cs : Str), hasTag cs = false → keepCitesF fuel n cs = cs := by
  intro fuel
  induction fuel with
  | zero => intro n cs _; rfl
  | succ fuel ih =>
    intro n cs h
    cases cs with
    | nil => simp [keepCitesF, tryMatch, List.isPrefixOf]
    | cons c rest =>
      simp only [hasTag, Bool.or_eq_false_iff] at h
      have htm : tryMatch (c :: rest) = none := by
        simp [tryMatch, h.1]
      simp only [keepCitesF, htm]
      rw [ih n rest h.2]

/-- Searching half of the empty-corpus behaviour: over an empty corpus
(`docs = []`) the external scorer returns a length-0 score array, and `topk`
then yields the empty list.  Whether the construction itself raises is
decided by the third-party `rank_bm25` constructor, outside these sources. -/
theorem bm25_topk_empty (k : Nat) : bm25_topk [] [] k = [] := by
  simp [bm25_topk, sortIdxDesc, rankHits]

/-- C10: in `answer` on a non-empty hit list the no-citation guardrail
triggers exactly when the generated text lacks the substring `"[source:"`
(a text containing that substring without any complete `]`-terminated
marker does not trigger it); when it triggers, the module-level default
refusal is appended to the stripped model output — the caller-supplied
override is never consulted on this path — and the appended text passes the
citation-limiting substitution unchanged. -/
theorem c10_guard_trigger_and_default (hits : List Document) (gen : Str → Str)
    (o1 o2 : Option Str) (h : hits ≠ []) :
    ((answer hits gen o1).result = (answer hits gen o2).result)
    ∧ (hasTag (gen (build_context hits MAX_CONTEXT_LENGTH)) = false →
        (answer hits gen o1).result =
          pyStrip (pyStrip (gen (build_context hits MAX_CONTEXT_LENGTH)) ++
            '\n' :: ('\n' :: DEFAULT_REFUSAL)))
    ∧ (hasTag (gen (build_context hits MAX_CONTEXT_LENGTH)) = true →
        (answer hits gen o1).result =
          pyStrip (keepCites MAX_DISTINCT_CITATIONS
            (gen (build_context hits MAX_CONTEXT_LENGTH)))) := by
  have hne : hits.isEmpty = false := by
    cases hits with
    | nil => simp at h
    | cons a t => simp
  have hnn : str "\n\n" = ['\n', '\n'] := rfl
  refine ⟨?_, ?_, ?_⟩
  · simp [answer, hne]
  · intro htag
    have hfree : hasTag (pyStrip (gen (build_context hits MAX_CONTEXT_LENGTH)) ++
        '\n' :: ('\n' :: DEFAULT_REFUSAL)) = false :=
      hasTag_append_guard _ _ (hasTag_pyStrip _ htag) (by decide)
    have hid := keepCitesF_no_tag
      (pyStrip (gen (build_context hits MAX_CONTEXT_LENGTH)) ++
        '\n' :: ('\n' :: DEFAULT_REFUSAL)).length
      MAX_DISTINCT_CITATIONS _ hfree
    simp only [answer, hne, htag, Bool.false_eq_true, if_false, hnn]
    rw [List.append_assoc]
    simp only [List.cons_append, List.nil_append]
    unfold keepCites
    rw [hid]
  · intro htag
    simp [answer, hne, htag]

/-- C10 (witness): the theorem applied to a one-hit retrieval and generated
text `"see [source: x"` — the trigger substring is present but no complete
marker is, so no refusal is appended and the text survives unchanged; the
result does not depend on the override. -/
theorem c10_witness :
    ((answer [da] genPartial (some (str "alternative"))).result =
      (answer [da] genPartial none).result)
    ∧ (answer [da] genPartial none).result = str "see [source: x" := by
  refine ⟨(c10_guard_trigger_and_default [da] genPartial (some (str "alternative")) none
    (by decide)).1, ?_⟩
  have h := (c10_guard_trigger_and_default [da] genPartial none none (by decide)).2.2
    (by decide)
  rw [h]
  decide

end RagSpec
